import Mathlib

/-!
Shallow embedding of the image post-processing and burst-selection core of
the Android-camera repository (functions `applyUnsharpMask`,
`applyGammaCorrection`, `calculateSharpness`, `captureBurstPhotos` in the
main component file), together with proofs checking the natural-language
specification against it.

An `ImageData` mirrors the browser `ImageData` object: a width, a height,
and a flat RGBA byte buffer indexed by `(y * width + x) * 4 + channel`.
Channel values are modelled as exact numbers (`ℚ` for the filters that use
only field operations, `ℝ` where the source uses `Math.pow` with a real
exponent); the rounding performed by the `Uint8ClampedArray` store is not
modelled, matching the spec's "modulo rounding" reading.
-/

namespace Cam

@[ext]
structure ImageData (α : Type) where
  width : ℕ
  height : ℕ
  data : ℕ → α

/-- Embedding of the source `applyUnsharpMask` pixel loop.  The blurred
buffer is passed in explicitly: the source obtains it from the platform
canvas `blur(radius px)` primitive, whose kernel is opaque, so the blur
itself is a parameter of the model.  For each pixel (base index a multiple
of 4) the source computes `diff = data[i] - blurredData[i]` (the red
channel), and when `Math.abs(diff) > threshold` rewrites the red, green and
blue channels to `min(255, max(0, v + (v - blurred_v) * amount))`; the
alpha channel `i + 3` is never written. -/
def applyUnsharpMask (orig blurred : ImageData ℚ) (amount threshold : ℚ) :
    ImageData ℚ where
  width := orig.width
  height := orig.height
  data := fun j =>
    if j % 4 = 3 then orig.data j
    else if threshold < |orig.data (j - j % 4) - blurred.data (j - j % 4)| then
      min 255 (max 0 (orig.data j + (orig.data j - blurred.data j) * amount))
    else orig.data j

/-- Transcription of the specification's description of the Detail
Enhancer: "For each pixel and each color channel, compute
`diff = original - blurred`.  If `|diff| >= threshold`, set
`output = clamp(original + diff * amount, 0, 255)`; otherwise
`output = original`.  Alpha channel passes through unmodified."  Used only
to compare the spec's words with the source behaviour. -/
def specUnsharpMask (orig blurred : ImageData ℚ) (amount threshold : ℚ) :
    ImageData ℚ where
  width := orig.width
  height := orig.height
  data := fun j =>
    if j % 4 = 3 then orig.data j
    else if threshold ≤ |orig.data j - blurred.data j| then
      min 255 (max 0 (orig.data j + (orig.data j - blurred.data j) * amount))
    else orig.data j

/-- Embedding of the source `applyGammaCorrection` loop: with
`invGamma = 1 / gamma`, every red, green and blue channel value `v` is
replaced by `Math.pow(v / 255, invGamma) * 255`; the alpha channel is never
written.  The source performs no validation of `gamma` whatsoever. -/
noncomputable def applyGammaCorrection (img : ImageData ℝ) (gamma : ℝ) :
    ImageData ℝ where
  width := img.width
  height := img.height
  data := fun j =>
    if j % 4 = 3 then img.data j
    else (img.data j / 255) ^ (1 / gamma) * 255

/-- The grey value the source computes at a flat base index:
`data[idx] * 0.299 + data[idx + 1] * 0.587 + data[idx + 2] * 0.114`. -/
def grayAt (d : ℕ → ℚ) (idx : ℕ) : ℚ :=
  d idx * 0.299 + d (idx + 1) * 0.587 + d (idx + 2) * 0.114

/-- The Laplacian magnitude the source accumulates at pixel `(x, y)`:
`|4 * gray - grayUp - grayDown - grayLeft - grayRight|` with the source's
flat index arithmetic. -/
def lapAt (width : ℕ) (d : ℕ → ℚ) (x y : ℕ) : ℚ :=
  |4 * grayAt d ((y * width + x) * 4) -
      grayAt d (((y - 1) * width + x) * 4) -
      grayAt d (((y + 1) * width + x) * 4) -
      grayAt d ((y * width + (x - 1)) * 4) -
      grayAt d ((y * width + (x + 1)) * 4)|

/-- The mutable state of the `calculateSharpness` loop: the two
accumulators `sharpness` and `count`, and the pixel buffer the loop body
reads from (threaded explicitly so that absence of writes is a theorem,
not an assumption). -/
structure SharpState where
  sharpness : ℚ
  count : ℕ
  data : ℕ → ℚ

/-- One iteration of the source's nested loop body at pixel `(x, y)`:
it adds the Laplacian magnitude to `sharpness`, increments `count`, and
performs no write to the buffer. -/
def sharpBody (width : ℕ) (st : SharpState) (p : ℕ × ℕ) : SharpState where
  sharpness := st.sharpness + lapAt width st.data p.1 p.2
  count := st.count + 1
  data := st.data

/-- The coordinates of one row of the interior traversal:
`x = i + 1` for `i < width - 2`, at row `y = j + 1`. -/
def rowCoords (width j : ℕ) : List (ℕ × ℕ) :=
  (List.range (width - 2)).map fun i => (i + 1, j + 1)

/-- The interior pixels in the order of the source's nested loops
(`y` from `1` to `height - 2` outer, `x` from `1` to `width - 2` inner). -/
def interiorCoords (width height : ℕ) : List (ℕ × ℕ) :=
  ((List.range (height - 2)).map (rowCoords width)).flatten

/-- Embedding of the whole `calculateSharpness` function as a state-passing
loop, returning both the source's return value
(`count > 0 ? sharpness / count : 0`) and the final pixel buffer. -/
def calculateSharpnessRun (img : ImageData ℚ) : ℚ × (ℕ → ℚ) :=
  let st := (interiorCoords img.width img.height).foldl
    (sharpBody img.width) ⟨0, 0, img.data⟩
  (if 0 < st.count then st.sharpness / (st.count : ℚ) else 0, st.data)

/-- The sharpness score the source returns. -/
def calculateSharpness (img : ImageData ℚ) : ℚ :=
  (calculateSharpnessRun img).1

/-- Transcription of the specification's luminance formula
`Y = 0.299 * R + 0.587 * G + 0.114 * B` at pixel `(x, y)`. -/
def luminance (img : ImageData ℚ) (x y : ℕ) : ℚ :=
  0.299 * img.data ((y * img.width + x) * 4) +
    0.587 * img.data ((y * img.width + x) * 4 + 1) +
    0.114 * img.data ((y * img.width + x) * 4 + 2)

/-- Transcription of the specification's discrete Laplacian
`|4 * Y(x,y) - Y(x-1,y) - Y(x+1,y) - Y(x,y-1) - Y(x,y+1)|`. -/
def specLaplacian (img : ImageData ℚ) (x y : ℕ) : ℚ :=
  |4 * luminance img x y - luminance img (x - 1) y - luminance img (x + 1) y -
      luminance img x (y - 1) - luminance img x (y + 1)|

/-- The interior pixels as the specification describes them: every
`(x, y)` with the 1-pixel border excluded. -/
def interiorPixels (img : ImageData ℚ) : Finset (ℕ × ℕ) :=
  Finset.Ico 1 (img.width - 1) ×ˢ Finset.Ico 1 (img.height - 1)

/-- The specification's sharpness score: the arithmetic mean of the
discrete Laplacian magnitude over all interior pixels. -/
def specMeanLaplacian (img : ImageData ℚ) : ℚ :=
  (∑ p ∈ interiorPixels img, specLaplacian img p.1 p.2) /
    ((interiorPixels img).card : ℚ)

/-- One processed burst candidate as `captureBurstPhotos` builds it:
its sharpness score and its encoded output. -/
structure Candidate where
  sharpness : ℚ
  dataUrl : String

/-- The reducer of the source's
`processed.reduce((prev, current) => current.sharpness > prev.sharpness ? current : prev)`. -/
def betterOf (prev cur : Candidate) : Candidate :=
  if prev.sharpness < cur.sharpness then cur else prev

/-- JavaScript `Array.prototype.reduce` without an initial value on a
non-empty list: fold the reducer over the tail starting from the head. -/
def selectBest : List Candidate → Option Candidate
  | [] => none
  | p :: rest => some (rest.foldl betterOf p)

/-- Control skeleton of `captureBurstPhotos`: the three `takePhoto`
attempts yield `takeResults` (a `some` blob on success, `none` on the
caught failure, which the source merely logs — skipped, never retried);
`photos` keeps the successful blobs in order; if none succeeded the
function returns `null`, otherwise every photo is processed into a
`Candidate` and the reduce picks the winner, whose `dataUrl` is
returned. -/
def captureBurstPhotos {β : Type} (takeResults : List (Option β))
    (process : β → Candidate) : Option String :=
  let photos := takeResults.filterMap id
  match selectBest (photos.map process) with
  | none => none
  | some best => some best.dataUrl

/-- Concrete 1×1 image whose single pixel has red 0, green 100, blue 0,
alpha 0. -/
def origG100 : ImageData ℚ := ⟨1, 1, fun j => if j = 1 then 100 else 0⟩

/-- Concrete all-zero 1×1 image, used as a blurred buffer. -/
def blurZero : ImageData ℚ := ⟨1, 1, fun _ => 0⟩

/-- Concrete 1×1 real-valued image with every channel equal to 51. -/
def constImg51 : ImageData ℝ := ⟨1, 1, fun _ => 51⟩

/-- Concrete all-zero 3×3 image. -/
def imgZ3 : ImageData ℚ := ⟨3, 3, fun _ => 0⟩

/-- Concrete all-zero 1×1 image. -/
def imgZ1 : ImageData ℚ := ⟨1, 1, fun _ => 0⟩

/-- Concrete candidate with score 1. -/
def candA : Candidate := ⟨1, "a"⟩

/-- Concrete candidate with score 2. -/
def candB : Candidate := ⟨2, "b"⟩

/-! ## Helper lemmas -/

lemma map_range_sum {M : Type} [AddCommMonoid M] (n : ℕ) (f : ℕ → M) :
    ((List.range n).map f).sum = ∑ i ∈ Finset.range n, f i := by
  induction n with
  | zero => simp
  | succ n ih => rw [List.range_succ]; simp [ih, Finset.sum_range_succ]

lemma interiorCoords_length (w h : ℕ) :
    (interiorCoords w h).length = (h - 2) * (w - 2) := by
  unfold interiorCoords
  generalize h - 2 = n
  induction n with
  | zero => simp
  | succ n ih =>
      rw [List.range_succ]
      simp only [List.map_append, List.map_cons, List.map_nil,
        List.flatten_append, List.flatten_cons, List.flatten_nil,
        List.append_nil, List.length_append, ih]
      simp [rowCoords, Nat.succ_mul]

lemma interiorCoords_map_sum (w h : ℕ) (f : ℕ × ℕ → ℚ) :
    ((interiorCoords w h).map f).sum =
      ∑ j ∈ Finset.range (h - 2), ∑ i ∈ Finset.range (w - 2), f (i + 1, j + 1) := by
  unfold interiorCoords
  generalize h - 2 = n
  induction n with
  | zero => simp
  | succ n ih =>
      rw [List.range_succ]
      simp only [List.map_append, List.map_cons, List.map_nil,
        List.flatten_append, List.flatten_cons, List.flatten_nil,
        List.append_nil, List.sum_append, ih, Finset.sum_range_succ]
      congr 1
      rw [rowCoords, List.map_map, map_range_sum]
      rfl

lemma foldl_sharpBody_data (w : ℕ) (l : List (ℕ × ℕ)) :
    ∀ st : SharpState, (l.foldl (sharpBody w) st).data = st.data := by
  induction l with
  | nil => intro st; rfl
  | cons p l ih => intro st; rw [List.foldl_cons, ih]; rfl

lemma foldl_sharpBody_count (w : ℕ) (l : List (ℕ × ℕ)) :
    ∀ st : SharpState, (l.foldl (sharpBody w) st).count = st.count + l.length := by
  induction l with
  | nil => intro st; simp
  | cons p l ih =>
      intro st
      rw [List.foldl_cons, ih]
      simp [sharpBody]
      omega

lemma foldl_sharpBody_sum (w : ℕ) (l : List (ℕ × ℕ)) :
    ∀ st : SharpState, (l.foldl (sharpBody w) st).sharpness =
      st.sharpness + (l.map fun p => lapAt w st.data p.1 p.2).sum := by
  induction l with
  | nil => intro st; simp
  | cons p l ih =>
      intro st
      rw [List.foldl_cons, ih]
      simp only [sharpBody, List.map_cons, List.sum_cons]
      ring

/-! ## Claim theorems -/

/-- C10: the Sharpness Estimator (`calculateSharpness`) leaves the image
buffer it scores entirely unchanged — the loop body only reads the pixel
data, so the buffer coming out of the state-passing run equals the input
buffer at every index. -/
theorem calculateSharpness_preserves_buffer (img : ImageData ℚ) (i : ℕ) :
    (calculateSharpnessRun img).2 i = img.data i := by
  unfold calculateSharpnessRun
  dsimp only
  rw [foldl_sharpBody_data]

/-- C6: the Tone Corrector (`applyGammaCorrection`) with `gamma = 1` is the
identity transform: every output channel value equals the corresponding
input channel value (exactly, in the unrounded model). -/
theorem applyGammaCorrection_gamma_one (img : ImageData ℝ) :
    applyGammaCorrection img 1 = img := by
  ext j
  · rfl
  · rfl
  · show (if j % 4 = 3 then img.data j else (img.data j / 255) ^ ((1 : ℝ) / 1) * 255) = _
    split_ifs with hj
    · rfl
    · rw [one_div_one, Real.rpow_one, div_mul_cancel₀]
      norm_num

/-- C9: both the Tone Corrector (`applyGammaCorrection`, any `gamma > 0`)
and the Detail Enhancer (`applyUnsharpMask`, any amount, threshold, and
blurred buffer) leave every pixel's alpha channel value (flat index
`4 * p + 3`) unchanged. -/
theorem alpha_unchanged :
    (∀ (img : ImageData ℝ) (gamma : ℝ), 0 < gamma → ∀ p : ℕ,
        (applyGammaCorrection img gamma).data (4 * p + 3) = img.data (4 * p + 3)) ∧
    (∀ (orig blurred : ImageData ℚ) (amount threshold : ℚ) (p : ℕ),
        (applyUnsharpMask orig blurred amount threshold).data (4 * p + 3) =
          orig.data (4 * p + 3)) := by
  have hmod : ∀ p : ℕ, (4 * p + 3) % 4 = 3 := fun p => by omega
  constructor
  · intro img gamma _ p
    show (if (4 * p + 3) % 4 = 3 then _ else _) = _
    rw [if_pos (hmod p)]
  · intro orig blurred amount threshold p
    show (if (4 * p + 3) % 4 = 3 then _ else _) = _
    rw [if_pos (hmod p)]

/-- Closed witness for `alpha_unchanged`: the hypothesis `0 < gamma` is
discharged at `gamma = 2` on a concrete image. -/
theorem alpha_unchanged_witness :
    (applyGammaCorrection constImg51 2).data (4 * 0 + 3) =
      constImg51.data (4 * 0 + 3) :=
  alpha_unchanged.1 constImg51 2 (by norm_num) 0

/-- C5: every output channel value of the Detail Enhancer
(`applyUnsharpMask`) lies in `[0, 255]`, for every input image whose
channel values lie in `[0, 255]`, every blurred buffer, and every choice
of `amount` and `threshold` — the sharpened channels are clamped by
`min 255 (max 0 ·)` and the remaining channels keep their original
values. -/
theorem applyUnsharpMask_range (orig blurred : ImageData ℚ)
    (amount threshold : ℚ)
    (hrange : ∀ i, 0 ≤ orig.data i ∧ orig.data i ≤ 255) (j : ℕ) :
    0 ≤ (applyUnsharpMask orig blurred amount threshold).data j ∧
      (applyUnsharpMask orig blurred amount threshold).data j ≤ 255 := by
  show 0 ≤ (if j % 4 = 3 then _ else _) ∧ (if j % 4 = 3 then _ else _) ≤ 255
  split_ifs with h1 h2
  · exact hrange j
  · constructor
    · exact le_min (by norm_num) (le_max_left 0 _)
    · exact min_le_left _ _
  · exact hrange j

/-- Closed witness for `applyUnsharpMask_range`: the range hypothesis is
discharged on the concrete image `origG100` (channels 0 and 100). -/
theorem applyUnsharpMask_range_witness :
    0 ≤ (applyUnsharpMask origG100 blurZero 1 5).data 1 ∧
      (applyUnsharpMask origG100 blurZero 1 5).data 1 ≤ 255 :=
  applyUnsharpMask_range origG100 blurZero 1 5
    (fun i => by unfold origG100; dsimp only; split_ifs <;> norm_num) 1

/-- C7: the Tone Corrector (`applyGammaCorrection`) is monotone per
channel: with `gamma > 1` the output channel value is ≥ the input value,
with `0 < gamma < 1` it is ≤ the input value, for every channel value in
`[0, 255]`. -/
theorem applyGammaCorrection_monotone (img : ImageData ℝ) (gamma : ℝ)
    (j : ℕ) (h0 : 0 ≤ img.data j) (h255 : img.data j ≤ 255) :
    (1 < gamma → img.data j ≤ (applyGammaCorrection img gamma).data j) ∧
      (0 < gamma → gamma < 1 →
        (applyGammaCorrection img gamma).data j ≤ img.data j) := by
  have hdata : (applyGammaCorrection img gamma).data j =
      if j % 4 = 3 then img.data j
      else (img.data j / 255) ^ (1 / gamma) * 255 := rfl
  by_cases hj : j % 4 = 3
  · rw [hdata, if_pos hj]
    exact ⟨fun _ => le_refl _, fun _ _ => le_refl _⟩
  · rw [hdata, if_neg hj]
    have ht0 : 0 ≤ img.data j / 255 := div_nonneg h0 (by norm_num)
    have ht1 : img.data j / 255 ≤ 1 := by
      rw [div_le_one (by norm_num : (0:ℝ) < 255)]
      exact h255
    have hback : img.data j / 255 * 255 = img.data j := by field_simp
    constructor
    · intro hg
      have hgpos : (0:ℝ) < gamma := lt_trans one_pos hg
      have hle : 1 / gamma ≤ 1 := by
        rw [div_le_one hgpos]
        exact le_of_lt hg
      have hpos : 0 < 1 / gamma := by positivity
      have key : img.data j / 255 ≤ (img.data j / 255) ^ (1 / gamma) := by
        rcases eq_or_lt_of_le ht0 with h | h
        · rw [← h, Real.zero_rpow (ne_of_gt hpos)]
        · calc img.data j / 255 = (img.data j / 255) ^ (1:ℝ) :=
                (Real.rpow_one _).symm
            _ ≤ (img.data j / 255) ^ (1 / gamma) :=
                Real.rpow_le_rpow_of_exponent_ge h ht1 hle
      calc img.data j = img.data j / 255 * 255 := hback.symm
        _ ≤ (img.data j / 255) ^ (1 / gamma) * 255 :=
            mul_le_mul_of_nonneg_right key (by norm_num)
    · intro hgpos hg1
      have hge : 1 ≤ 1 / gamma := by
        rw [le_div_iff₀ hgpos]
        linarith
      have key : (img.data j / 255) ^ (1 / gamma) ≤ img.data j / 255 := by
        rcases eq_or_lt_of_le ht0 with h | h
        · rw [← h, Real.zero_rpow (by positivity : (1:ℝ) / gamma ≠ 0)]
        · calc (img.data j / 255) ^ (1 / gamma) ≤ (img.data j / 255) ^ (1:ℝ) :=
                Real.rpow_le_rpow_of_exponent_ge h ht1 hge
            _ = img.data j / 255 := Real.rpow_one _
      calc (img.data j / 255) ^ (1 / gamma) * 255 ≤ img.data j / 255 * 255 :=
            mul_le_mul_of_nonneg_right key (by norm_num)
        _ = img.data j := hback

/-- Closed witness for `applyGammaCorrection_monotone`: the range and
gamma hypotheses are discharged at channel value 51 with gamma 2 and
gamma 1/2. -/
theorem applyGammaCorrection_monotone_witness :
    constImg51.data 0 ≤ (applyGammaCorrection constImg51 2).data 0 ∧
      (applyGammaCorrection constImg51 (1/2)).data 0 ≤ constImg51.data 0 :=
  ⟨(applyGammaCorrection_monotone constImg51 2 0
      (by norm_num [constImg51]) (by norm_num [constImg51])).1 (by norm_num),
    (applyGammaCorrection_monotone constImg51 (1/2) 0
      (by norm_num [constImg51]) (by norm_num [constImg51])).2
      (by norm_num) (by norm_num)⟩

/-- C8 counterexample: no validation of out-of-range parameters exists in
the code.  `applyGammaCorrection` called with `gamma = -1` on a pixel with
channel value 51 is not rejected: it runs the per-pixel power transform
and silently produces the (out-of-range) value `1275 = 5 * 255`. -/
theorem applyGammaCorrection_no_validation_cex :
    constImg51.data 0 = 51 ∧
      (applyGammaCorrection constImg51 (-1)).data 0 = 1275 ∧
      (applyGammaCorrection constImg51 (-1)).data 0 ≠ constImg51.data 0 := by
  have h1 : constImg51.data 0 = 51 := rfl
  have h2 : (applyGammaCorrection constImg51 (-1)).data 0 = 1275 := by
    show (if (0:ℕ) % 4 = 3 then constImg51.data 0
      else (constImg51.data 0 / 255) ^ ((1:ℝ) / (-1)) * 255) = 1275
    rw [if_neg (by norm_num), h1]
    rw [show ((1:ℝ) / (-1)) = ((-1 : ℤ) : ℝ) by norm_num, Real.rpow_intCast]
    norm_num
  exact ⟨h1, h2, by rw [h1, h2]; norm_num⟩

/-- C8 amended: the per-pixel transform of `applyGammaCorrection` runs for
every value of `gamma` — including `gamma ≤ 0` — with no validation or
error path; every red, green and blue channel is unconditionally remapped
to `(v / 255) ^ (1 / gamma) * 255`. -/
theorem applyGammaCorrection_unvalidated (img : ImageData ℝ) (gamma : ℝ)
    (p : ℕ) :
    (applyGammaCorrection img gamma).data (4 * p) =
        (img.data (4 * p) / 255) ^ (1 / gamma) * 255 ∧
      (applyGammaCorrection img gamma).data (4 * p + 1) =
        (img.data (4 * p + 1) / 255) ^ (1 / gamma) * 255 ∧
      (applyGammaCorrection img gamma).data (4 * p + 2) =
        (img.data (4 * p + 2) / 255) ^ (1 / gamma) * 255 := by
  refine ⟨?_, ?_, ?_⟩
  · show (if (4 * p) % 4 = 3 then img.data (4 * p)
      else (img.data (4 * p) / 255) ^ (1 / gamma) * 255) = _
    rw [if_neg (by omega)]
  · show (if (4 * p + 1) % 4 = 3 then img.data (4 * p + 1)
      else (img.data (4 * p + 1) / 255) ^ (1 / gamma) * 255) = _
    rw [if_neg (by omega)]
  · show (if (4 * p + 2) % 4 = 3 then img.data (4 * p + 2)
      else (img.data (4 * p + 2) / 255) ^ (1 / gamma) * 255) = _
    rw [if_neg (by omega)]

/-- C3 counterexample: the Detail Enhancer does not gate each channel on
its own difference.  On a pixel with red diff 0 and green diff 100
(threshold 5, amount 1), the code leaves green at 100 — the red-channel
gate fails — while the spec's per-channel rule would sharpen green
to 200. -/
theorem applyUnsharpMask_channel_gate_cex :
    (applyUnsharpMask origG100 blurZero 1 5).data 1 = 100 ∧
      (specUnsharpMask origG100 blurZero 1 5).data 1 = 200 ∧
      (applyUnsharpMask origG100 blurZero 1 5).data 1 ≠
        (specUnsharpMask origG100 blurZero 1 5).data 1 := by
  have h1 : (applyUnsharpMask origG100 blurZero 1 5).data 1 = 100 := by
    show (if (1:ℕ) % 4 = 3 then origG100.data 1
      else if (5:ℚ) < |origG100.data (1 - 1 % 4) - blurZero.data (1 - 1 % 4)| then
        min 255 (max 0 (origG100.data 1 + (origG100.data 1 - blurZero.data 1) * 1))
      else origG100.data 1) = 100
    norm_num [origG100, blurZero]
  have h2 : (specUnsharpMask origG100 blurZero 1 5).data 1 = 200 := by
    show (if (1:ℕ) % 4 = 3 then origG100.data 1
      else if (5:ℚ) ≤ |origG100.data 1 - blurZero.data 1| then
        min 255 (max 0 (origG100.data 1 + (origG100.data 1 - blurZero.data 1) * 1))
      else origG100.data 1) = 200
    norm_num [origG100, blurZero]
  exact ⟨h1, h2, by rw [h1, h2]; norm_num⟩

/-- C3 amended: `applyUnsharpMask` gates per pixel, not per channel: the
gate compares the red-channel difference `|R_orig - R_blur|` strictly
against the threshold, and when it passes, each of the red, green and blue
channels is set to `min 255 (max 0 (v + (v - blur_v) * amount))`;
otherwise the whole pixel is left unchanged; alpha is always unchanged. -/
theorem applyUnsharpMask_red_gate (orig blurred : ImageData ℚ)
    (amount threshold : ℚ) (p : ℕ) :
    ((applyUnsharpMask orig blurred amount threshold).data (4 * p) =
        if threshold < |orig.data (4 * p) - blurred.data (4 * p)| then
          min 255 (max 0 (orig.data (4 * p) +
            (orig.data (4 * p) - blurred.data (4 * p)) * amount))
        else orig.data (4 * p)) ∧
      ((applyUnsharpMask orig blurred amount threshold).data (4 * p + 1) =
        if threshold < |orig.data (4 * p) - blurred.data (4 * p)| then
          min 255 (max 0 (orig.data (4 * p + 1) +
            (orig.data (4 * p + 1) - blurred.data (4 * p + 1)) * amount))
        else orig.data (4 * p + 1)) ∧
      ((applyUnsharpMask orig blurred amount threshold).data (4 * p + 2) =
        if threshold < |orig.data (4 * p) - blurred.data (4 * p)| then
          min 255 (max 0 (orig.data (4 * p + 2) +
            (orig.data (4 * p + 2) - blurred.data (4 * p + 2)) * amount))
        else orig.data (4 * p + 2)) ∧
      ((applyUnsharpMask orig blurred amount threshold).data (4 * p + 3) =
        orig.data (4 * p + 3)) := by
  refine ⟨?_, ?_, ?_, ?_⟩
  · show (if (4 * p) % 4 = 3 then orig.data (4 * p)
      else if threshold < |orig.data (4 * p - (4 * p) % 4) -
          blurred.data (4 * p - (4 * p) % 4)| then
        min 255 (max 0 (orig.data (4 * p) +
          (orig.data (4 * p) - blurred.data (4 * p)) * amount))
      else orig.data (4 * p)) = _
    rw [show 4 * p - (4 * p) % 4 = 4 * p by omega, if_neg (by omega)]
  · show (if (4 * p + 1) % 4 = 3 then orig.data (4 * p + 1)
      else if threshold < |orig.data (4 * p + 1 - (4 * p + 1) % 4) -
          blurred.data (4 * p + 1 - (4 * p + 1) % 4)| then
        min 255 (max 0 (orig.data (4 * p + 1) +
          (orig.data (4 * p + 1) - blurred.data (4 * p + 1)) * amount))
      else orig.data (4 * p + 1)) = _
    rw [show 4 * p + 1 - (4 * p + 1) % 4 = 4 * p by omega, if_neg (by omega)]
  · show (if (4 * p + 2) % 4 = 3 then orig.data (4 * p + 2)
      else if threshold < |orig.data (4 * p + 2 - (4 * p + 2) % 4) -
          blurred.data (4 * p + 2 - (4 * p + 2) % 4)| then
        min 255 (max 0 (orig.data (4 * p + 2) +
          (orig.data (4 * p + 2) - blurred.data (4 * p + 2)) * amount))
      else orig.data (4 * p + 2)) = _
    rw [show 4 * p + 2 - (4 * p + 2) % 4 = 4 * p by omega, if_neg (by omega)]
  · show (if (4 * p + 3) % 4 = 3 then orig.data (4 * p + 3)
      else if threshold < |orig.data (4 * p + 3 - (4 * p + 3) % 4) -
          blurred.data (4 * p + 3 - (4 * p + 3) % 4)| then
        min 255 (max 0 (orig.data (4 * p + 3) +
          (orig.data (4 * p + 3) - blurred.data (4 * p + 3)) * amount))
      else orig.data (4 * p + 3)) = _
    rw [if_pos (by omega)]

/-- Splitting lemma for the source's `reduce`: folding `betterOf` over
`l` starting from `p` lands on an element of `p :: l` such that every
element strictly before it scores strictly less (so the first of any tie
is kept) and every element of `p :: l` scores no more. -/
lemma foldl_betterOf_split (l : List Candidate) :
    ∀ p : Candidate, ∃ pre post,
      p :: l = pre ++ (l.foldl betterOf p) :: post ∧
      (∀ c ∈ pre, c.sharpness < (l.foldl betterOf p).sharpness) ∧
      (∀ c ∈ p :: l, c.sharpness ≤ (l.foldl betterOf p).sharpness) := by
  induction l with
  | nil =>
      intro p
      refine ⟨[], [], rfl, by simp, ?_⟩
      intro c hc
      rw [List.mem_singleton.mp hc]
      exact le_refl _
  | cons c rest ih =>
      intro p
      rw [List.foldl_cons]
      obtain ⟨pre, post, hsplit, hpre, hall⟩ := ih (betterOf p c)
      by_cases hpc : p.sharpness < c.sharpness
      · have hbc : betterOf p c = c := by simp [betterOf, hpc]
        rw [hbc] at hsplit hpre hall ⊢
        refine ⟨p :: pre, post, ?_, ?_, ?_⟩
        · rw [List.cons_append, ← hsplit]
        · intro d hd
          rcases List.mem_cons.mp hd with h | h
          · subst h
            exact lt_of_lt_of_le hpc (hall c (List.mem_cons_self c rest))
          · exact hpre d h
        · intro d hd
          rcases List.mem_cons.mp hd with h | h
          · subst h
            exact le_of_lt (lt_of_lt_of_le hpc (hall c (List.mem_cons_self c rest)))
          · exact hall d h
      · have hbc : betterOf p c = p := by simp [betterOf, hpc]
        have hcp : c.sharpness ≤ p.sharpness := not_lt.mp hpc
        rw [hbc] at hsplit hpre hall ⊢
        cases pre with
        | nil =>
            simp only [List.nil_append, List.cons.injEq] at hsplit
            obtain ⟨hp, hpost⟩ := hsplit
            refine ⟨[], c :: rest, ?_, by simp, ?_⟩
            · rw [List.nil_append, ← hp]
            · intro d hd
              rcases List.mem_cons.mp hd with h | h
              · subst h
                rw [← hp]
              · rcases List.mem_cons.mp h with h2 | h2
                · subst h2
                  rw [← hp]
                  exact hcp
                · exact hall d (List.mem_cons_of_mem p h2)
        | cons q pre₂ =>
            rw [List.cons_append, List.cons.injEq] at hsplit
            obtain ⟨hq, hrest⟩ := hsplit
            have hpmem : p ∈ q :: pre₂ := by
              rw [hq]
              exact List.mem_cons_self q pre₂
            have hpR : p.sharpness < (rest.foldl betterOf p).sharpness :=
              hpre p hpmem
            refine ⟨p :: c :: pre₂, post, ?_, ?_, ?_⟩
            · rw [List.cons_append, List.cons_append, ← hrest]
            · intro d hd
              rcases List.mem_cons.mp hd with h | h
              · subst h
                exact hpR
              · rcases List.mem_cons.mp h with h2 | h2
                · subst h2
                  exact lt_of_le_of_lt hcp hpR
                · exact hpre d (List.mem_cons_of_mem q h2)
            · intro d hd
              rcases List.mem_cons.mp hd with h | h
              · rw [h]
                exact hall p (List.mem_cons_self p rest)
              · rcases List.mem_cons.mp h with h2 | h2
                · rw [h2]
                  exact le_trans hcp (hall p (List.mem_cons_self p rest))
                · exact hall d (List.mem_cons_of_mem p h2)

/-- C2: on every non-empty candidate list, the Burst Selector's reduce
(`selectBest`, the `processed.reduce` of `captureBurstPhotos`) returns a
candidate of maximal sharpness score, and — since `betterOf` replaces the
running best only on a strictly greater score — the first captured
(lowest index) one among equal maximal scores: every candidate before the
winner scores strictly less, and none scores more. -/
theorem selectBest_first_max (l : List Candidate) (hne : l ≠ []) :
    ∃ best pre post, selectBest l = some best ∧ l = pre ++ best :: post ∧
      (∀ c ∈ pre, c.sharpness < best.sharpness) ∧
      (∀ c ∈ l, c.sharpness ≤ best.sharpness) := by
  cases l with
  | nil => exact absurd rfl hne
  | cons p rest =>
      obtain ⟨pre, post, hsplit, hpre, hall⟩ := foldl_betterOf_split rest p
      exact ⟨rest.foldl betterOf p, pre, post, rfl, hsplit, hpre, hall⟩

/-- Closed witness for `selectBest_first_max` on the concrete list
`[candA, candB]`, discharging the non-emptiness hypothesis. -/
theorem selectBest_first_max_witness :
    ∃ best pre post, selectBest [candA, candB] = some best ∧
      [candA, candB] = pre ++ best :: post ∧
      (∀ c ∈ pre, c.sharpness < best.sharpness) ∧
      (∀ c ∈ [candA, candB], c.sharpness ≤ best.sharpness) :=
  selectBest_first_max [candA, candB] (by simp)

/-- C4: a burst call with its `burstSize = 3` capture attempts returns
Failure (`none`) exactly when all three attempts failed — each failed
attempt contributes nothing to `photos` (skipped, never retried), and any
successful attempt yields a candidate and hence a result. -/
theorem captureBurstPhotos_failure {β : Type} (takeResults : List (Option β))
    (process : β → Candidate) (_hlen : takeResults.length = 3) :
    captureBurstPhotos takeResults process = none ↔
      ∀ r ∈ takeResults, r = none := by
  have hiff : takeResults.filterMap id = [] ↔ ∀ r ∈ takeResults, r = none := by
    constructor
    · intro h r hr
      cases r with
      | none => rfl
      | some b =>
          have hb : b ∈ takeResults.filterMap id :=
            List.mem_filterMap.mpr ⟨some b, hr, rfl⟩
          rw [h] at hb
          exact absurd hb (List.not_mem_nil b)
    · intro h
      cases hfm : takeResults.filterMap id with
      | nil => rfl
      | cons b bs =>
          have hb : b ∈ takeResults.filterMap id := by
            rw [hfm]
            exact List.mem_cons_self b bs
          obtain ⟨r, hr, hrb⟩ := List.mem_filterMap.mp hb
          rw [h r hr] at hrb
          exact absurd hrb (by simp)
  unfold captureBurstPhotos
  dsimp only
  constructor
  · intro hnone
    apply hiff.mp
    rcases hx : takeResults.filterMap id with _ | ⟨b, bs⟩
    · rfl
    · rw [hx] at hnone
      simp [selectBest] at hnone
  · intro hall
    rw [hiff.mpr hall]
    rfl

/-- Closed witness for `captureBurstPhotos_failure`: the burst-size
hypothesis is discharged on the concrete all-failed attempt list. -/
theorem captureBurstPhotos_failure_witness :
    (captureBurstPhotos ([none, none, none] : List (Option ℕ))
        (fun _ => ⟨0, "x"⟩) = none ↔
      ∀ r ∈ ([none, none, none] : List (Option ℕ)), r = none) :=
  captureBurstPhotos_failure _ _ rfl

/-- The Laplacian magnitude the source computes at interior pixel
`(i + 1, j + 1)` coincides with the specification's discrete Laplacian of
the specification's luminance there. -/
lemma lapAt_eq_specLaplacian (img : ImageData ℚ) (i j : ℕ) :
    lapAt img.width img.data (i + 1) (j + 1) =
      specLaplacian img (1 + i) (1 + j) := by
  rw [Nat.add_comm 1 i, Nat.add_comm 1 j]
  unfold lapAt specLaplacian luminance grayAt
  simp only [Nat.add_sub_cancel]
  congr 1
  ring

/-- C1: for every image with width ≥ 3 and height ≥ 3 the Sharpness
Estimator (`calculateSharpness`) returns the arithmetic mean over all
interior pixels of the discrete Laplacian magnitude of the luminance
`Y = 0.299 R + 0.587 G + 0.114 B` (the specification's
`specMeanLaplacian`), and for every image with width < 3 or height < 3 it
returns 0. -/
theorem calculateSharpness_spec (img : ImageData ℚ) :
    (3 ≤ img.width → 3 ≤ img.height →
      calculateSharpness img = specMeanLaplacian img) ∧
      (img.width < 3 ∨ img.height < 3 → calculateSharpness img = 0) := by
  have hcount : ((interiorCoords img.width img.height).foldl
      (sharpBody img.width) ⟨0, 0, img.data⟩).count =
      (img.height - 2) * (img.width - 2) := by
    rw [foldl_sharpBody_count, interiorCoords_length]
    simp
  have hsum : ((interiorCoords img.width img.height).foldl
      (sharpBody img.width) ⟨0, 0, img.data⟩).sharpness =
      ∑ j ∈ Finset.range (img.height - 2), ∑ i ∈ Finset.range (img.width - 2),
        lapAt img.width img.data (i + 1) (j + 1) := by
    rw [foldl_sharpBody_sum]
    dsimp only
    rw [interiorCoords_map_sum]
    rw [zero_add]
  constructor
  · intro hw hh
    have hpos : 0 < (img.height - 2) * (img.width - 2) :=
      Nat.mul_pos (by omega) (by omega)
    unfold calculateSharpness calculateSharpnessRun
    dsimp only
    rw [if_pos (by rw [hcount]; exact hpos), hcount, hsum]
    unfold specMeanLaplacian interiorPixels
    rw [Finset.sum_product', Finset.sum_comm, Finset.card_product]
    simp only [Finset.sum_Ico_eq_sum_range, Nat.card_Ico]
    have hw2 : img.width - 1 - 1 = img.width - 2 := by omega
    have hh2 : img.height - 1 - 1 = img.height - 2 := by omega
    rw [hw2, hh2]
    congr 1
    · refine Finset.sum_congr rfl fun j _ => Finset.sum_congr rfl fun i _ => ?_
      exact lapAt_eq_specLaplacian img j i
    · push_cast
      ring
  · intro hd
    have h0 : (img.height - 2) * (img.width - 2) = 0 := by
      rcases hd with h | h
      · have hz : img.width - 2 = 0 := by omega
        rw [hz, Nat.mul_zero]
      · have hz : img.height - 2 = 0 := by omega
        rw [hz, Nat.zero_mul]
    unfold calculateSharpness calculateSharpnessRun
    dsimp only
    rw [if_neg (by rw [hcount, h0]; exact lt_irrefl 0)]

/-- Closed witness for `calculateSharpness_spec`: the size hypotheses are
discharged on a concrete 3×3 image and a concrete 1×1 image. -/
theorem calculateSharpness_spec_witness :
    calculateSharpness imgZ3 = specMeanLaplacian imgZ3 ∧
      calculateSharpness imgZ1 = 0 :=
  ⟨(calculateSharpness_spec imgZ3).1 (by norm_num [imgZ3])
      (by norm_num [imgZ3]),
    (calculateSharpness_spec imgZ1).2 (Or.inl (by norm_num [imgZ1]))⟩

end Cam
